import Mathlib

/-
Verification of the media-pipeline core of the `clawd` repository.

Durations are modelled as exact rationals (the source uses Python floats for
seconds); texts are modelled as lists of characters or, where only the word
count matters, as natural numbers; provider calls are modelled by explicit
outcome parameters so that every control path of the source is a value of the
embedding.  Each section names the source file and function it embeds.
-/

namespace Clawd

/- ====================================================================
   src/utils/video.py : _concat_with_crossfades
   ==================================================================== -/

/-- Duration of the xfade chain built by `_concat_with_crossfades`.
Merging an accumulated stream of duration `acc` with the next clip of
duration `di` at offset `acc - fade` yields duration `acc + di - fade`
(ffmpeg xfade: output duration = offset + second input duration). -/
def chainDuration (fade : ℚ) : List ℚ → ℚ
  | [] => 0
  | d :: ds => ds.foldl (fun acc di => acc + di - fade) d

/-- The source's offset loop: `offset` starts at `durations[0] - fade_dur` and
after emitting the offset for transition `i` advances by `durations[i] - fade_dur`. -/
def xfadeOffsetsGo (fade : ℚ) (offset : ℚ) : List ℚ → List ℚ
  | [] => []
  | d :: rest => offset :: xfadeOffsetsGo fade (offset + d - fade) rest

/-- Offsets of the N-1 xfade transitions built by `_concat_with_crossfades`,
one per clip after the first. -/
def xfadeOffsets (fade : ℚ) : List ℚ → List ℚ
  | [] => []
  | d0 :: rest => xfadeOffsetsGo fade (d0 - fade) rest

/-- Output duration of `_concat_with_crossfades` on clips with the given
durations: `none` for an empty list (the function returns False), the clip
itself for a single clip (stream-copied), and the xfade chain otherwise. -/
def concat_with_crossfades_dur (fade : ℚ) : List ℚ → Option ℚ
  | [] => none
  | [d] => some d
  | d0 :: d1 :: rest => some (chainDuration fade (d0 :: d1 :: rest))

lemma chainDuration_foldl (fade a : ℚ) (ds : List ℚ) :
    ds.foldl (fun acc di => acc + di - fade) a = a + ds.sum - ds.length * fade := by
  induction ds generalizing a with
  | nil => simp
  | cons d rest ih =>
      rw [List.foldl_cons, ih]
      simp only [List.sum_cons, List.length_cons]
      push_cast
      ring

lemma chainDuration_eq_sum (fade : ℚ) (d : ℚ) (ds : List ℚ) :
    chainDuration fade (d :: ds) = (d :: ds).sum - ds.length * fade := by
  simp only [chainDuration, chainDuration_foldl, List.sum_cons]

lemma xfadeOffsetsGo_length (fade o : ℚ) (ds : List ℚ) :
    (xfadeOffsetsGo fade o ds).length = ds.length := by
  induction ds generalizing o with
  | nil => rfl
  | cons d rest ih => simp [xfadeOffsetsGo, ih]

lemma xfadeOffsetsGo_get (fade : ℚ) (ds : List ℚ) :
    ∀ (o : ℚ) (i : ℕ) (hi : i < (xfadeOffsetsGo fade o ds).length),
      (xfadeOffsetsGo fade o ds).get ⟨i, hi⟩ = o + (ds.take i).sum - i * fade := by
  induction ds with
  | nil => intro o i hi; simp [xfadeOffsetsGo] at hi
  | cons d rest ih =>
      intro o i hi
      cases i with
      | zero => simp [xfadeOffsetsGo]
      | succ j =>
          have hj : j < (xfadeOffsetsGo fade (o + d - fade) rest).length := by
            simpa [xfadeOffsetsGo] using hi
          have := ih (o + d - fade) j hj
          simp only [xfadeOffsetsGo, List.get_cons_succ, this, List.take_succ_cons,
            List.sum_cons]
          push_cast
          ring

lemma xfadeOffsets_length (fade : ℚ) (ds : List ℚ) :
    (xfadeOffsets fade ds).length = ds.length - 1 := by
  cases ds with
  | nil => rfl
  | cons d rest => simp [xfadeOffsets, xfadeOffsetsGo_length]

lemma xfadeOffsets_get (fade : ℚ) (ds : List ℚ) (i : ℕ)
    (hi : i < (xfadeOffsets fade ds).length) :
    (xfadeOffsets fade ds).get ⟨i, hi⟩ = (ds.take (i + 1)).sum - (i + 1 : ℕ) * fade := by
  cases ds with
  | nil => simp [xfadeOffsets] at hi
  | cons d rest =>
      have := xfadeOffsetsGo_get fade rest (d - fade) i (by simpa [xfadeOffsets] using hi)
      simp only [xfadeOffsets] at *
      rw [this]
      simp only [List.take_succ_cons, List.sum_cons]
      push_cast
      ring

/-- C1: for N clips, `_concat_with_crossfades` applies N-1 xfade transitions; the
offset of transition i equals the merged duration of the preceding clips minus
the fade length (equivalently, the cumulative clip duration minus (i+1) fades);
the final duration is sum of durations minus (N-1) fades; a single clip is
copied through unchanged (the same formula with N = 1). -/
theorem C1_crossfade_chain (fade : ℚ) (ds : List ℚ) (h : ds ≠ []) :
    concat_with_crossfades_dur fade ds
        = some (ds.sum - ((ds.length - 1 : ℕ) : ℚ) * fade)
    ∧ (xfadeOffsets fade ds).length = ds.length - 1
    ∧ (∀ (i : ℕ) (hi : i < (xfadeOffsets fade ds).length),
        (xfadeOffsets fade ds).get ⟨i, hi⟩ = (ds.take (i + 1)).sum - (i + 1 : ℕ) * fade)
    ∧ (∀ (i : ℕ) (hi : i < (xfadeOffsets fade ds).length),
        (xfadeOffsets fade ds).get ⟨i, hi⟩ = chainDuration fade (ds.take (i + 1)) - fade) := by
  refine ⟨?_, xfadeOffsets_length fade ds, xfadeOffsets_get fade ds, ?_⟩
  · match ds with
    | [] => exact absurd rfl h
    | [d] => simp [concat_with_crossfades_dur]
    | d0 :: d1 :: rest =>
        simp only [concat_with_crossfades_dur, chainDuration_eq_sum, List.length_cons,
          List.sum_cons, Option.some.injEq]
        push_cast
        ring
  · intro i hi
    rw [xfadeOffsets_get fade ds i hi]
    match ds with
    | [] => simp [xfadeOffsets] at hi
    | d0 :: rest =>
        have hlen : i < rest.length := by
          simpa [xfadeOffsets, xfadeOffsetsGo_length] using hi
        have htake : (d0 :: rest).take (i + 1) = d0 :: rest.take i := by
          simp [List.take_succ_cons]
        rw [htake, chainDuration_eq_sum]
        have : (rest.take i).length = i := List.length_take_of_le (le_of_lt hlen)
        rw [this]
        simp only [List.sum_cons]
        push_cast
        ring

/-- Witness for C1 at three 8-second clips and the source's 0.5s fade:
24 - 2 * 0.5 = 23 seconds. -/
theorem C1_crossfade_chain_witness :
    concat_with_crossfades_dur (1/2) [8, 8, 8] = some 23 := by
  have h := C1_crossfade_chain (1/2) [8, 8, 8] (by simp)
  rw [h.1]
  norm_num

/- ====================================================================
   src/commands/youtube_video.py : handle, chapter duration allocation
   ==================================================================== -/

/-- The per-chapter screen-time allocation of `youtube_video.handle`:
proportional share of the master audio duration by narration word count
(`total_words` replaced by 1 when zero, as in the source), then a floor of
3 seconds applied to each chapter. -/
def chapterDurations (chapterWords : List ℕ) (audioDur : ℚ) : List ℚ :=
  let totalWords : ℕ := chapterWords.sum
  let tw : ℚ := if totalWords = 0 then 1 else (totalWords : ℚ)
  (chapterWords.map (fun (w : ℕ) => ((w : ℚ) / tw) * audioDur)).map (fun d => max 3 d)

/-- C2 counterexample: chapters with 1 and 9 narration words over a 10-second
master audio get proportional shares 1s and 9s; the 3-second floor bumps the
first to 3s, so the allocated durations sum to 12, not the audio duration. -/
theorem C2_counterexample :
    (chapterDurations [1, 9] 10).sum ≠ 10 := by
  norm_num [chapterDurations, max_def]

lemma share_sum_aux (l : List ℕ) (T audioDur : ℚ) :
    (l.map (fun (w : ℕ) => ((w : ℚ) / T) * audioDur)).sum = ((l.sum : ℚ) / T) * audioDur := by
  induction l with
  | nil => simp
  | cons w rest ih =>
      simp only [List.map_cons, List.sum_cons, ih]
      push_cast
      ring

lemma sum_map_share (chapterWords : List ℕ) (audioDur : ℚ)
    (hW : chapterWords.sum ≠ 0) :
    (chapterWords.map (fun (w : ℕ) => ((w : ℚ) / (chapterWords.sum : ℚ)) * audioDur)).sum
      = audioDur := by
  have hW' : ((chapterWords.sum : ℕ) : ℚ) ≠ 0 := by exact_mod_cast hW
  rw [share_sum_aux, div_self hW', one_mul]

lemma sum_le_sum_max3 (l : List ℚ) : l.sum ≤ (l.map (fun d => max 3 d)).sum := by
  induction l with
  | nil => simp
  | cons d rest ih =>
      simp only [List.map_cons, List.sum_cons]
      exact add_le_add (le_max_right 3 d) ih

lemma map_max3_id (l : List ℚ) (h : ∀ d ∈ l, 3 ≤ d) :
    l.map (fun d => max 3 d) = l := by
  induction l with
  | nil => rfl
  | cons d rest ih =>
      simp only [List.map_cons]
      rw [max_eq_right (h d (List.mem_cons_self d rest)),
        ih (fun x hx => h x (List.mem_cons_of_mem d hx))]

lemma all_floor_of_sum_max3_eq (l : List ℚ)
    (h : (l.map (fun d => max 3 d)).sum = l.sum) :
    ∀ d ∈ l, 3 ≤ d := by
  induction l with
  | nil => intro d hd; exact absurd hd (List.not_mem_nil d)
  | cons d rest ih =>
      simp only [List.map_cons, List.sum_cons] at h
      have h1 : d ≤ max 3 d := le_max_right 3 d
      have h2 : rest.sum ≤ (rest.map (fun x => max 3 x)).sum := sum_le_sum_max3 rest
      have hd : max 3 d = d := by linarith
      have hr : (rest.map (fun x => max 3 x)).sum = rest.sum := by linarith
      intro x hx
      rcases List.mem_cons.mp hx with rfl | hx2
      · exact max_eq_right_iff.mp hd
      · exact ih hr x hx2

/-- C2 amended: each chapter gets its proportional word-count share of the master
audio duration with a 3-second floor; the floored durations sum to at least the
audio duration, and the sum equals the audio duration if and only if no
chapter's proportional share is below the floor (the floor is applied after
allocation and is not redistributed). -/
theorem C2_duration_allocation (chapterWords : List ℕ) (audioDur : ℚ)
    (hW : chapterWords.sum ≠ 0) :
    audioDur ≤ (chapterDurations chapterWords audioDur).sum
    ∧ ((chapterDurations chapterWords audioDur).sum = audioDur ↔
        ∀ w ∈ chapterWords, 3 ≤ ((w : ℚ) / (chapterWords.sum : ℚ)) * audioDur) := by
  have htw : (if chapterWords.sum = 0 then (1 : ℚ) else (chapterWords.sum : ℚ))
      = (chapterWords.sum : ℚ) := if_neg hW
  constructor
  · calc audioDur
        = (chapterWords.map (fun (w : ℕ) => ((w : ℚ) / (chapterWords.sum : ℚ)) * audioDur)).sum :=
          (sum_map_share chapterWords audioDur hW).symm
      _ ≤ (chapterDurations chapterWords audioDur).sum := by
          simp only [chapterDurations, htw]
          exact sum_le_sum_max3 _
  · constructor
    · intro heq
      have hmaps : ((chapterWords.map (fun (w : ℕ) =>
          ((w : ℚ) / (chapterWords.sum : ℚ)) * audioDur)).map (fun d => max 3 d)).sum
          = (chapterWords.map (fun (w : ℕ) =>
              ((w : ℚ) / (chapterWords.sum : ℚ)) * audioDur)).sum := by
        have hch : (chapterDurations chapterWords audioDur).sum
            = ((chapterWords.map (fun (w : ℕ) =>
                ((w : ℚ) / (chapterWords.sum : ℚ)) * audioDur)).map (fun d => max 3 d)).sum := by
          simp only [chapterDurations, htw]
        rw [← hch, heq, sum_map_share chapterWords audioDur hW]
      have hall := all_floor_of_sum_max3_eq _ hmaps
      intro w hw
      exact hall _ (List.mem_map_of_mem _ hw)
    · intro hfloor
      have hall : ∀ d ∈ chapterWords.map (fun (w : ℕ) =>
          ((w : ℚ) / (chapterWords.sum : ℚ)) * audioDur), 3 ≤ d := by
        intro d hd
        obtain ⟨w, hw, rfl⟩ := List.mem_map.mp hd
        exact hfloor w hw
      simp only [chapterDurations, htw]
      rw [map_max3_id _ hall]
      exact sum_map_share chapterWords audioDur hW

/-- Witness for C2 at two 450-word chapters and a 10-second master audio: each
share is 5s, at or above the floor, and the allocation sums to the audio duration. -/
theorem C2_duration_allocation_witness :
    (chapterDurations [450, 450] 10).sum = 10 := by
  have h := C2_duration_allocation [450, 450] 10 (by norm_num)
  refine h.2.mpr ?_
  intro w hw
  simp only [List.mem_cons, List.not_mem_nil, or_false] at hw
  rcases hw with rfl | rfl <;> norm_num

/- ====================================================================
   src/apis/haiku.py : generate_youtube_script,
   generate_youtube_script_structured
   ==================================================================== -/

def WORDS_PER_MINUTE : ℕ := 150

/-- `generate_youtube_script`, modelled on word counts.  `first` and `ext` are
the word counts of the two possible `_call_haiku` responses (`none` = failed
call).  Returns the final script word count (joining with a blank line adds the
word counts) and the number of continuation calls issued. -/
def generate_youtube_script (minutes : ℕ) (first ext : Option ℕ) : Option ℕ × ℕ :=
  let target := minutes * WORDS_PER_MINUTE
  match first with
  | none => (none, 0)
  | some wc =>
    if (wc : ℚ) < (target : ℚ) * (3 / 5) then
      match ext with
      | some e => (some (wc + e), 1)
      | none => (some wc, 1)
    else (some wc, 0)

/-- `generate_youtube_script_structured`, modelled on the per-chapter narration
word counts of the parsed JSON.  `first` is the initial parsed chapter list
(`none` = call or parse failure, a stage failure), `ext` the parsed extension
response (`none` = extension call failed or its JSON did not parse, in which
case the original data is kept).  Returns the final chapter word counts and the
number of continuation calls issued. -/
def generate_youtube_script_structured (minutes : ℕ)
    (first ext : Option (List ℕ)) : Option (List ℕ) × ℕ :=
  let target := minutes * WORDS_PER_MINUTE
  match first with
  | none => (none, 0)
  | some chs =>
    if ((chs.sum : ℕ) : ℚ) < (target : ℚ) * (3 / 5) then
      match ext with
      | some chs2 => (some chs2, 1)
      | none => (some chs, 1)
    else (some chs, 0)

/-- C3: in both script stages a produced script below 60% of the target word
count (`minutes * 150`) triggers exactly one continuation call, a script at or
above 60% triggers zero, and the continuation is never repeated (the count is
always at most one), whatever the continuation call returns. -/
theorem C3_single_continuation (minutes : ℕ) (first : Option ℕ) (ext : Option ℕ)
    (firstS extS : Option (List ℕ)) :
    ((generate_youtube_script minutes first ext).2 ≤ 1
      ∧ ((generate_youtube_script minutes first ext).2 = 1
          ↔ ∃ wc, first = some wc
              ∧ (wc : ℚ) < ((minutes * WORDS_PER_MINUTE : ℕ) : ℚ) * (3 / 5)))
    ∧ ((generate_youtube_script_structured minutes firstS extS).2 ≤ 1
      ∧ ((generate_youtube_script_structured minutes firstS extS).2 = 1
          ↔ ∃ chs, firstS = some chs
              ∧ ((chs.sum : ℕ) : ℚ) < ((minutes * WORDS_PER_MINUTE : ℕ) : ℚ) * (3 / 5))) := by
  constructor
  · constructor
    · cases first with
      | none => simp [generate_youtube_script]
      | some wc =>
          simp only [generate_youtube_script]
          by_cases hlt : (wc : ℚ) < ((minutes * WORDS_PER_MINUTE : ℕ) : ℚ) * (3 / 5)
          · rw [if_pos hlt]; cases ext <;> exact Nat.le_refl 1
          · rw [if_neg hlt]; exact Nat.zero_le 1
    · cases first with
      | none => simp [generate_youtube_script]
      | some wc =>
          simp only [generate_youtube_script]
          by_cases hlt : (wc : ℚ) < ((minutes * WORDS_PER_MINUTE : ℕ) : ℚ) * (3 / 5)
          · rw [if_pos hlt]
            cases ext <;> exact ⟨fun _ => ⟨wc, rfl, hlt⟩, fun _ => rfl⟩
          · rw [if_neg hlt]
            constructor
            · intro hcontra; simp at hcontra
            · rintro ⟨wc', hw, hlt'⟩
              rw [Option.some.injEq] at hw
              subst hw
              exact absurd hlt' hlt
  · constructor
    · cases firstS with
      | none => simp [generate_youtube_script_structured]
      | some chs =>
          simp only [generate_youtube_script_structured]
          by_cases hlt : ((chs.sum : ℕ) : ℚ) < ((minutes * WORDS_PER_MINUTE : ℕ) : ℚ) * (3 / 5)
          · rw [if_pos hlt]; cases extS <;> exact Nat.le_refl 1
          · rw [if_neg hlt]; exact Nat.zero_le 1
    · cases firstS with
      | none => simp [generate_youtube_script_structured]
      | some chs =>
          simp only [generate_youtube_script_structured]
          by_cases hlt : ((chs.sum : ℕ) : ℚ) < ((minutes * WORDS_PER_MINUTE : ℕ) : ℚ) * (3 / 5)
          · rw [if_pos hlt]
            cases extS <;> exact ⟨fun _ => ⟨chs, rfl, hlt⟩, fun _ => rfl⟩
          · rw [if_neg hlt]
            constructor
            · intro hcontra; simp at hcontra
            · rintro ⟨chs', hw, hlt'⟩
              rw [Option.some.injEq] at hw
              subst hw
              exact absurd hlt' hlt

/- ====================================================================
   src/apis/fal_api.py : _sanitize_prompt, animate_scene
   ==================================================================== -/

/-- Outcome of one `fal_client.subscribe` animation call. -/
inductive AnimOutcome where
  | ok (url : String)
  | noVideo
  | contentPolicyErr
  | otherErr
deriving DecidableEq

/-- Outcome of the `_call_haiku` rewrite inside `_sanitize_prompt`: the call
returns the rewritten text on a 200 response, returns `None` on a non-200
response, or raises a request exception ( `requests.post` has no surrounding
try in `_call_haiku` or `_sanitize_prompt`). -/
inductive RewriteOutcome where
  | ok (s : String)
  | respFailure
  | raised
deriving DecidableEq

/-- `_sanitize_prompt`: the rewritten text when the Haiku call succeeds, the
original prompt when the call returns `None`, and no prompt at all when the
call raises — the exception propagates out of `_sanitize_prompt` into the
caller. -/
def sanitize_prompt (prompt : String) (rw : RewriteOutcome) : Option String :=
  match rw with
  | .ok s => some s
  | .respFailure => some prompt
  | .raised => none

/-- Observable trace of one `animate_scene` invocation: the returned URL, how
many times `_sanitize_prompt` was entered, and the prompt the second animation
call used (`none` when no second call was made). -/
structure AnimateTrace where
  result : Option String
  sanitizeCalls : ℕ
  retryPrompt : Option String
deriving DecidableEq

/-- `animate_scene`: attempt 0 uses the original prompt; only a content-policy
exception on attempt 0 leads to attempt 1.  Attempt 1 first evaluates
`_sanitize_prompt(prompt)` inside the try block: if that raises, the attempt-1
except handler returns `None` and no second animation call happens; otherwise
the second animation call runs with the sanitized prompt, and any second
exception returns `None` even if it is itself a content-policy one. -/
def animate_scene (prompt : String) (o1 : AnimOutcome)
    (rw : RewriteOutcome) (o2 : AnimOutcome) : AnimateTrace :=
  match o1 with
  | .ok u => ⟨some u, 0, none⟩
  | .noVideo => ⟨none, 0, none⟩
  | .otherErr => ⟨none, 0, none⟩
  | .contentPolicyErr =>
    match sanitize_prompt prompt rw with
    | none => ⟨none, 1, none⟩
    | some p2 =>
      match o2 with
      | .ok u => ⟨some u, 1, some p2⟩
      | _ => ⟨none, 1, some p2⟩

/-- C4 counterexample: the first attempt fails with the content-policy
signature and the sanitizing rewrite itself fails by raising (a request
exception in `_call_haiku`): the scene fails outright — no retry is made with
the original prompt, even though the second animation call would have
succeeded.  The claim that a failed rewrite always retries the original prompt
verbatim rather than failing the scene is false on the code. -/
theorem C4_counterexample :
    (animate_scene "p" .contentPolicyErr .raised (.ok "u")).result = none
    ∧ (animate_scene "p" .contentPolicyErr .raised (.ok "u")).retryPrompt = none := by
  exact ⟨rfl, rfl⟩

/-- C4 amended: the sanitizer runs at most once per scene animation, and
exactly when the first attempt fails with the content-policy signature; when
the rewrite call merely returns an unsuccessful response, the retry uses the
original prompt verbatim; when the rewrite call succeeds, the retry uses the
rewritten prompt, and if it then succeeds the scene gets exactly that one
asset; but when the rewrite call raises, the exception is caught by the
retry attempt's handler and the scene fails outright with no retry. -/
theorem C4_sanitizer_once (prompt : String) (o1 : AnimOutcome)
    (rw : RewriteOutcome) (o2 : AnimOutcome) :
    (animate_scene prompt o1 rw o2).sanitizeCalls ≤ 1
    ∧ ((animate_scene prompt o1 rw o2).sanitizeCalls = 1 ↔ o1 = .contentPolicyErr)
    ∧ (o1 = .contentPolicyErr → rw = .respFailure →
        (animate_scene prompt o1 rw o2).retryPrompt = some prompt)
    ∧ (∀ s, o1 = .contentPolicyErr → rw = .ok s →
        (animate_scene prompt o1 rw o2).retryPrompt = some s)
    ∧ (o1 = .contentPolicyErr → rw = .raised →
        (animate_scene prompt o1 rw o2).retryPrompt = none
        ∧ (animate_scene prompt o1 rw o2).result = none)
    ∧ (∀ u, o1 = .contentPolicyErr → rw ≠ .raised → o2 = .ok u →
        (animate_scene prompt o1 rw o2).result = some u) := by
  refine ⟨?_, ?_, ?_, ?_, ?_, ?_⟩
  · cases o1 <;> cases rw <;> cases o2 <;> simp [animate_scene, sanitize_prompt]
  · cases o1 <;> cases rw <;> cases o2 <;> simp [animate_scene, sanitize_prompt]
  · intro h1 h2; subst h1; subst h2; cases o2 <;> rfl
  · intro s h1 h2; subst h1; subst h2; cases o2 <;> rfl
  · intro h1 h2; subst h1; subst h2; exact ⟨rfl, rfl⟩
  · intro u h1 h2 h3; subst h1; subst h3
    cases rw with
    | ok s => rfl
    | respFailure => rfl
    | raised => exact absurd rfl h2

/-- Witness for the amended C4: first attempt hits the content-policy
signature, the rewrite call returns an unsuccessful response, the retry uses
the original prompt verbatim and succeeds. -/
theorem C4_sanitizer_once_witness :
    (animate_scene "p" .contentPolicyErr .respFailure (.ok "u")).sanitizeCalls = 1
    ∧ (animate_scene "p" .contentPolicyErr .respFailure (.ok "u")).retryPrompt = some "p"
    ∧ (animate_scene "p" .contentPolicyErr .respFailure (.ok "u")).result = some "u" := by
  have h := C4_sanitizer_once "p" .contentPolicyErr .respFailure (.ok "u")
  exact ⟨h.2.1.mpr rfl, h.2.2.1 rfl rfl,
    h.2.2.2.2.2 "u" rfl (by intro hx; exact RewriteOutcome.noConfusion hx) rfl⟩

/- ====================================================================
   src/apis/kling.py : poll_video   /   src/apis/runway.py : poll_avatar
   ==================================================================== -/

/-- Outcome of one poll iteration as the source distinguishes them: a raised
request exception or a non-200 response (both fall through to the sleep), a 200
response whose status is neither terminal-success nor terminal-failure, a
terminal success carrying the extracted URL when one was usable, or a terminal
failure status (kling `failed`; runway `FAILED`/`ERROR`). -/
inductive PollStatus where
  | transient
  | pending
  | success (url : Option String)
  | failure
deriving DecidableEq

/-- A poll iteration on which the loop just sleeps and continues. -/
def PollStatus.isQuiet : PollStatus → Prop
  | .transient => True
  | .pending => True
  | _ => False

instance (s : PollStatus) : Decidable s.isQuiet := by
  cases s <;> simp [PollStatus.isQuiet] <;> infer_instance

/-- The shared shape of both polling loops: `fuel` remaining attempts, `i` the
current attempt index.  Terminal success returns the extracted URL (which may
itself be `none` when the payload held no usable URL), terminal failure returns
`none` immediately, anything else continues; exhausting the attempts returns
`none`. -/
def poll_loop (outcomes : ℕ → PollStatus) : ℕ → ℕ → Option String
  | 0, _ => none
  | fuel + 1, i =>
    match outcomes i with
    | .success u => u
    | .failure => none
    | _ => poll_loop outcomes fuel (i + 1)

/-- `kling.poll_video`: 60 attempts at a 10-second interval. -/
def poll_video (outcomes : ℕ → PollStatus) : Option String :=
  poll_loop outcomes 60 0

/-- `runway.poll_avatar`: 120 attempts at a 5-second interval. -/
def poll_avatar (outcomes : ℕ → PollStatus) : Option String :=
  poll_loop outcomes 120 0

lemma poll_loop_quiet_step (outcomes : ℕ → PollStatus) (fuel i : ℕ)
    (h : (outcomes i).isQuiet) :
    poll_loop outcomes (fuel + 1) i = poll_loop outcomes fuel (i + 1) := by
  cases hs : outcomes i <;> rw [hs] at h <;> simp [PollStatus.isQuiet] at h <;>
    simp [poll_loop, hs]

lemma poll_loop_all_quiet (outcomes : ℕ → PollStatus) :
    ∀ (fuel i : ℕ), (∀ j, i ≤ j → j < i + fuel → (outcomes j).isQuiet) →
      poll_loop outcomes fuel i = none := by
  intro fuel
  induction fuel with
  | zero => intro i _; rfl
  | succ n ih =>
      intro i hq
      rw [poll_loop_quiet_step outcomes n i (hq i (le_refl i) (by omega))]
      exact ih (i + 1) (fun j h1 h2 => hq j (by omega) (by omega))

lemma poll_loop_failure (outcomes : ℕ → PollStatus) :
    ∀ (fuel i k : ℕ), i ≤ k → k < i + fuel →
      (∀ j, i ≤ j → j < k → (outcomes j).isQuiet) →
      outcomes k = .failure →
      poll_loop outcomes fuel i = none := by
  intro fuel
  induction fuel with
  | zero => intro i k h1 h2; omega
  | succ n ih =>
      intro i k h1 h2 hq hk
      by_cases hik : i = k
      · subst hik
        simp [poll_loop, hk]
      · have hstep : (outcomes i).isQuiet := hq i (le_refl i) (by omega)
        rw [poll_loop_quiet_step outcomes n i hstep]
        exact ih (i + 1) k (by omega) (by omega)
          (fun j ha hb => hq j (by omega) hb) hk

lemma poll_loop_window (fuel : ℕ) :
    ∀ (outcomes outcomes2 : ℕ → PollStatus) (i : ℕ),
      (∀ j, i ≤ j → j < i + fuel → outcomes j = outcomes2 j) →
      poll_loop outcomes fuel i = poll_loop outcomes2 fuel i := by
  induction fuel with
  | zero => intro o o2 i _; rfl
  | succ n ih =>
      intro o o2 i hagree
      have hi : o i = o2 i := hagree i (le_refl i) (by omega)
      show (match o i with
        | .success u => u
        | .failure => none
        | _ => poll_loop o n (i + 1))
        = (match o2 i with
        | .success u => u
        | .failure => none
        | _ => poll_loop o2 n (i + 1))
      rw [← hi]
      cases o i <;> first
        | rfl
        | exact ih o o2 (i + 1) (fun j ha hb => hagree j (by omega) (by omega))

/-- C5: for both polling loops (kling `poll_video`, 60 attempts; runway
`poll_avatar`, 120 attempts): a transient-error or still-pending poll is a
no-op and the loop continues; a terminal-failure status reached after only
quiet polls returns failure immediately; if every attempt within the bound is
quiet the loop returns a hard failure; and the result depends only on the
attempts within the fixed bound, so the loop always terminates there. -/
theorem C5_poll_bounded (outcomes : ℕ → PollStatus) :
    (∀ fuel i, (outcomes i).isQuiet →
        poll_loop outcomes (fuel + 1) i = poll_loop outcomes fuel (i + 1))
    ∧ ((∀ j < 60, (outcomes j).isQuiet) → poll_video outcomes = none)
    ∧ (∀ k < 60, (∀ j < k, (outcomes j).isQuiet) → outcomes k = .failure →
        poll_video outcomes = none)
    ∧ (∀ outcomes2, (∀ j < 60, outcomes j = outcomes2 j) →
        poll_video outcomes = poll_video outcomes2)
    ∧ ((∀ j < 120, (outcomes j).isQuiet) → poll_avatar outcomes = none)
    ∧ (∀ k < 120, (∀ j < k, (outcomes j).isQuiet) → outcomes k = .failure →
        poll_avatar outcomes = none)
    ∧ (∀ outcomes2, (∀ j < 120, outcomes j = outcomes2 j) →
        poll_avatar outcomes = poll_avatar outcomes2) := by
  refine ⟨fun fuel i h => poll_loop_quiet_step outcomes fuel i h, ?_, ?_, ?_, ?_, ?_, ?_⟩
  · intro hq
    exact poll_loop_all_quiet outcomes 60 0 (fun j _ hj => hq j (by omega))
  · intro k hk hq hfail
    exact poll_loop_failure outcomes 60 0 k (Nat.zero_le k) (by omega)
      (fun j _ hj => hq j hj) hfail
  · intro o2 hagree
    exact poll_loop_window 60 outcomes o2 0 (fun j _ hj => hagree j (by omega))
  · intro hq
    exact poll_loop_all_quiet outcomes 120 0 (fun j _ hj => hq j (by omega))
  · intro k hk hq hfail
    exact poll_loop_failure outcomes 120 0 k (Nat.zero_le k) (by omega)
      (fun j _ hj => hq j hj) hfail
  · intro o2 hagree
    exact poll_loop_window 120 outcomes o2 0 (fun j _ hj => hagree j (by omega))

/-- Witness for C5: a provider that raises a transient HTTP error on every poll
makes both loops time out with a hard failure within their attempt bounds. -/
theorem C5_poll_bounded_witness :
    poll_video (fun _ => .transient) = none
    ∧ poll_avatar (fun _ => .transient) = none := by
  have h := C5_poll_bounded (fun _ => PollStatus.transient)
  exact ⟨h.2.1 (fun j _ => trivial), h.2.2.2.2.1 (fun j _ => trivial)⟩

/- ====================================================================
   src/commands/animated_video.py : handle, step 4 (download/trim/concat)
   ==================================================================== -/

/-- The per-scene trim target of `animated_video.handle`:
`int(dur.replace("s", "")) - 1`, i.e. the scene's nominal duration in seconds
minus one second. -/
def trim_seconds (nominal : ℤ) : ℤ := nominal - 1

/-- The ffmpeg trim invocation built for one clip (re-encodes, keeps the clip's
own audio, cuts at the trim target). -/
def trimCmd (inPath : String) (t : ℤ) (outPath : String) : List String :=
  ["ffmpeg", "-y", "-i", inPath, "-t", toString t, "-c:v", "libx264", "-c:a", "aac", outPath]

/-- The final concat invocation of `animated_video.handle`: the concat demuxer
over the list file, one single input, no filter graph, no extra audio input. -/
def concatCmd (concatFile outputPath : String) : List String :=
  ["ffmpeg", "-y", "-f", "concat", "-safe", "0", "-i", concatFile,
   "-c:v", "libx264", "-c:a", "aac", "-movflags", "+faststart", outputPath]

/-- An entry of the concat list: the trimmed clip of scene `i` (with its trim
target), or the raw downloaded clip when the trim invocation failed. -/
inductive ClipRef where
  | raw (i : ℕ)
  | trimmed (i : ℕ) (target : ℤ)
deriving DecidableEq

/-- The `trimmed_paths` list of `animated_video.handle`: for each scene in
order, the trimmed clip when ffmpeg succeeded (`trimOk`), else the raw clip. -/
def trimmed_paths (sceneDurs : List ℤ) (trimOk : ℕ → Bool) : List ClipRef :=
  sceneDurs.enum.map (fun p =>
    if trimOk p.1 then .trimmed p.1 (trim_seconds p.2) else .raw p.1)

/-- C6: when every trim succeeds, the concat list holds exactly one trimmed
clip per scene, in scene order, each cut to the scene's nominal duration minus
one second; and the final assembly command is a plain concat: a single `-i`
input, no filter graph (hence no crossfade), and no additional audio input
beyond the clips' own streams. -/
theorem C6_trim_and_plain_concat (sceneDurs : List ℤ) (trimOk : ℕ → Bool)
    (concatFile outputPath : String)
    (hok : ∀ i, trimOk i = true)
    (hcf : concatFile ≠ "-i") (hop : outputPath ≠ "-i")
    (hcf2 : concatFile ≠ "-filter_complex") (hop2 : outputPath ≠ "-filter_complex") :
    trimmed_paths sceneDurs trimOk
        = sceneDurs.enum.map (fun p => .trimmed p.1 (p.2 - 1))
    ∧ (trimmed_paths sceneDurs trimOk).length = sceneDurs.length
    ∧ (concatCmd concatFile outputPath).count "-i" = 1
    ∧ "-filter_complex" ∉ concatCmd concatFile outputPath
    ∧ (∀ p d o, (trimCmd p (trim_seconds d) o).get? 4 = some "-t"
        ∧ (trimCmd p (trim_seconds d) o).get? 5 = some (toString (d - 1))) := by
  refine ⟨?_, ?_, ?_, ?_, fun p d o => ⟨rfl, rfl⟩⟩
  · unfold trimmed_paths
    apply List.map_congr_left
    intro p _
    rw [hok p.1]
    rfl
  · simp [trimmed_paths]
  · simp only [concatCmd, List.count_cons, List.count_nil]
    have h1 : concatFile ≠ "-i" := hcf
    have h2 : outputPath ≠ "-i" := hop
    simp [h1, h2]
  · simp only [concatCmd, List.mem_cons, List.not_mem_nil, or_false]
    push_neg
    refine ⟨by decide, by decide, by decide, by decide, by decide, by decide, by decide,
      fun h => hcf2 h.symm, by decide, by decide, by decide, by decide, by decide,
      by decide, fun h => hop2 h.symm⟩

/-- Witness for C6, at the source's default scene durations (8s and a 4s
transition scene) with all trims succeeding. -/
theorem C6_trim_and_plain_concat_witness :
    trimmed_paths [8, 4] (fun _ => true)
      = [.trimmed 0 7, .trimmed 1 3]
    ∧ (concatCmd "/tmp/concat.txt" "/tmp/final.mp4").count "-i" = 1 := by
  have h := C6_trim_and_plain_concat [8, 4] (fun _ => true)
    "/tmp/concat.txt" "/tmp/final.mp4" (fun _ => rfl)
    (by decide) (by decide) (by decide) (by decide)
  refine ⟨?_, h.2.2.1⟩
  rw [h.1]
  rfl

/- ====================================================================
   src/commands/youtube_video.py and src/commands/animated_video.py :
   _cleanup and the exit paths of handle / _handle_legacy /
   _handle_legacy_from_audio / _deliver_video
   ==================================================================== -/

/-- The files a request can create in its Work Area, identified by the fixed
names the source gives them. -/
inductive WFile where
  | audio
  | slide (i : ℕ)
  | kbClip (i : ℕ)
  | slidesConcat
  | stockClip (i : ℕ)
  | bgFull
  | concatList
  | rawClip (i : ℕ)
  | trimClip (i : ℕ)
  | finalVideo
deriving DecidableEq

/-- `_cleanup(work_dir, keep_final)`: every file of the directory is removed
except the one equal to `keep_final`; returns the files that remain. -/
def cleanup (files : List WFile) (keepFinal : Option WFile) : List WFile :=
  files.filter (fun f => keepFinal == some f)

/-- The exit paths of `youtube_video.handle` (including its legacy fallback
continuations) and `animated_video.handle`: the handled (coded) returns, plus
the uncaught-exception exits the handlers do not guard against — the trim and
concat `subprocess.run(..., timeout=...)` calls of `animated_video.handle` can
raise `TimeoutExpired` with no surrounding try, and a Telegram send failure in
`_deliver_video` / `reply_video` aborts the handler before `_cleanup` runs. -/
inductive ExitPath where
  | ytAudioFailed
  | ytSlideFailed
  | ytAudioZeroDuration
  | ytCompositeFailed
  | ytDelivered
  | legacyScriptFailed
  | legacyAudioFailed
  | legacyFootageFailed
  | legacyCompositeFailed
  | legacyDelivered
  | animScriptOrAssetFailed
  | animDownloadFailed
  | animConcatFailed
  | animDelivered
  | animTrimTimeout
  | animConcatTimeout
  | ytDeliverSendFailed
  | animDeliverSendFailed
deriving DecidableEq

/-- Whether the exit is one of the handlers' coded returns (`true`) or an
uncaught-exception exit (`false`). -/
def ExitPath.handled : ExitPath → Bool
  | .animTrimTimeout => false
  | .animConcatTimeout => false
  | .ytDeliverSendFailed => false
  | .animDeliverSendFailed => false
  | _ => true

/-- What one exit does: which files exist in the Work Area at that point,
whether `_cleanup` is invoked there and with which `keep_final` argument, and
which file is the request's output at that exit (if one exists). -/
structure ExitState where
  files : List WFile
  cleanupArg : Option (Option WFile)
  output : Option WFile

def slideFiles (n : ℕ) : List WFile := (List.range n).map .slide
def kbFiles (n : ℕ) : List WFile := (List.range n).map .kbClip
def stockFiles (n : ℕ) : List WFile := (List.range n).map .stockClip
def rawFiles (n : ℕ) : List WFile := (List.range n).map .rawClip
def trimFiles (n : ℕ) : List WFile := (List.range n).map .trimClip

/-- The exit table of the two command handlers, read off the source.
`a` counts slide images and `b` Ken Burns clips already produced when the slide
pipeline hands over to the legacy continuation (for `animTrimTimeout`, `a`
counts the trimmed clips written before the timeout); `n` is the
scene/chapter/clip count of the active path.  Handled exits taken before any
file is written have an empty file list and no cleanup call (the source indeed
does not call `_cleanup` there); the uncaught-exception exits leave every file
in place with no cleanup call. -/
def exitState : ExitPath → ℕ → ℕ → ℕ → ExitState
  | .ytAudioFailed, _, _, _ => ⟨[], none, none⟩
  | .ytSlideFailed, _, _, _ => ⟨[.audio], some none, none⟩
  | .ytAudioZeroDuration, _, _, _ => ⟨[.audio], some none, none⟩
  | .ytCompositeFailed, n, _, _ =>
      ⟨.audio :: slideFiles n ++ kbFiles n ++ [.slidesConcat, .finalVideo],
        some none, none⟩
  | .ytDelivered, n, _, _ =>
      ⟨.audio :: slideFiles n ++ kbFiles n ++ [.slidesConcat, .finalVideo],
        some (some .finalVideo), some .finalVideo⟩
  | .legacyScriptFailed, _, _, _ => ⟨[], none, none⟩
  | .legacyAudioFailed, _, _, _ => ⟨[], none, none⟩
  | .legacyFootageFailed, _, a, b =>
      ⟨.audio :: slideFiles a ++ kbFiles b, some none, none⟩
  | .legacyCompositeFailed, n, a, b =>
      ⟨.audio :: slideFiles a ++ kbFiles b ++ stockFiles n
          ++ [.concatList, .bgFull, .finalVideo],
        some none, none⟩
  | .legacyDelivered, n, a, b =>
      ⟨.audio :: slideFiles a ++ kbFiles b ++ stockFiles n
          ++ [.concatList, .bgFull, .finalVideo],
        some (some .finalVideo), some .finalVideo⟩
  | .animScriptOrAssetFailed, _, _, _ => ⟨[], none, none⟩
  | .animDownloadFailed, n, _, _ => ⟨rawFiles n, some none, none⟩
  | .animConcatFailed, n, _, _ =>
      ⟨rawFiles n ++ trimFiles n ++ [.concatList, .finalVideo], some none, none⟩
  | .animDelivered, n, _, _ =>
      ⟨rawFiles n ++ trimFiles n ++ [.concatList, .finalVideo],
        some (some .finalVideo), some .finalVideo⟩
  | .animTrimTimeout, n, a, _ => ⟨rawFiles n ++ trimFiles a, none, none⟩
  | .animConcatTimeout, n, _, _ =>
      ⟨rawFiles n ++ trimFiles n ++ [.concatList], none, none⟩
  | .ytDeliverSendFailed, n, _, _ =>
      ⟨.audio :: slideFiles n ++ kbFiles n ++ [.slidesConcat, .finalVideo],
        none, some .finalVideo⟩
  | .animDeliverSendFailed, n, _, _ =>
      ⟨rawFiles n ++ trimFiles n ++ [.concatList, .finalVideo],
        none, some .finalVideo⟩

/-- The Work Area contents after the exit's cleanup (if any) has run. -/
def remainingFiles (s : ExitState) : List WFile :=
  match s.cleanupArg with
  | some k => cleanup s.files k
  | none => s.files

lemma cleanup_mem (files : List WFile) (k : Option WFile) (f : WFile) :
    f ∈ cleanup files k ↔ f ∈ files ∧ k = some f := by
  simp only [cleanup, List.mem_filter, beq_iff_eq]

/-- C7 counterexample: a Telegram send failure in `_deliver_video` aborts the
slide pipeline after the output exists but before `_cleanup` runs: the
intermediate `audio.mp3` survives in the Work Area on that exit path, so
intermediates are not deleted regardless of which exit path was taken. -/
theorem C7_counterexample :
    WFile.audio ∈ remainingFiles (exitState .ytDeliverSendFailed 4 0 0)
    ∧ (exitState .ytDeliverSendFailed 4 0 0).output ≠ some WFile.audio := by
  exact ⟨by decide, by decide⟩

/-- C7 amended: on every handled (coded) exit path of the two handlers —
success or failure — no intermediate file survives in the Work Area: whatever
remains is the output file; and on every exit, handled or not, an output that
exists at the exit survives (the cleanup never deletes the kept output).  On
the uncaught-exception exits (ffmpeg subprocess timeouts during trim/concat,
Telegram send failures during delivery) no cleanup runs and intermediate files
survive. -/
theorem C7_cleanup_handled_exits (e : ExitPath) (n a b : ℕ) :
    (e.handled = true →
      ∀ f ∈ remainingFiles (exitState e n a b),
        (exitState e n a b).output = some f)
    ∧ (∀ o, (exitState e n a b).output = some o →
        o ∈ (exitState e n a b).files ∧ o ∈ remainingFiles (exitState e n a b)) := by
  cases e <;>
    refine ⟨fun hh f hf => ?_, fun o ho => ?_⟩ <;>
    simp_all [exitState, remainingFiles, cleanup_mem, ExitPath.handled]

/-- Witness for C7 at the delivered exit of the slide pipeline with 4 chapters:
only the final video survives, and it does survive. -/
theorem C7_cleanup_handled_exits_witness :
    (∀ f ∈ remainingFiles (exitState .ytDelivered 4 0 0),
        (exitState .ytDelivered 4 0 0).output = some f)
    ∧ WFile.finalVideo ∈ remainingFiles (exitState .ytDelivered 4 0 0) := by
  have h := C7_cleanup_handled_exits .ytDelivered 4 0 0
  exact ⟨h.1 rfl, (h.2 .finalVideo rfl).2⟩

/- ====================================================================
   src/utils/video.py : _concat_clips (stock footage fallback)
   ==================================================================== -/

/-- Sum of the positive durations of a clip pool: what one full pass of the
source's inner loop adds when it never reaches the target (clips with
non-positive probed duration are skipped by `if dur <= 0: continue`). -/
def posSum (l : List ℚ) : ℚ := (l.filter (fun d => decide (0 < d))).sum

/-- One pass of the source's inner for-loop over the (shuffled) pool: append
each positive-duration clip and accumulate, breaking as soon as the
accumulated duration reaches the target.  Returns the entries written during
the pass and the new accumulated duration. -/
def concatPass (target : ℚ) : List ℚ → ℚ → List ℚ × ℚ
  | [], acc => ([], acc)
  | d :: rest, acc =>
    if d ≤ 0 then concatPass target rest acc
    else if target ≤ acc + d then ([d], acc + d)
    else
      let r := concatPass target rest (acc + d)
      (d :: r.1, r.2)

/-- The source's while-loop (`while accumulated < target_duration`), with the
pass index `k` selecting that pass's shuffle and an explicit bound `fuel` on
the number of passes; the claim is that some sufficient `fuel` always exists. -/
def concatLoop (target : ℚ) (shuffles : ℕ → List ℚ) :
    ℕ → ℕ → ℚ → List ℚ → Option (List ℚ × ℚ)
  | 0, _, acc, out => if target ≤ acc then some (out, acc) else none
  | fuel + 1, k, acc, out =>
    if target ≤ acc then some (out, acc)
    else
      concatLoop target shuffles fuel (k + 1) (concatPass target (shuffles k) acc).2
        (out ++ (concatPass target (shuffles k) acc).1)

/-- `_concat_clips`: returns False (`none`) when the pool's total probed
duration is non-positive, else runs the loop building the concat list. -/
def concat_clips (durations : List ℚ) (target : ℚ) (shuffles : ℕ → List ℚ)
    (fuel : ℕ) : Option (List ℚ × ℚ) :=
  if durations.sum ≤ 0 then none
  else concatLoop target shuffles fuel 0 0 []

/-- The `-t target_duration` cut applied by the final ffmpeg invocation. -/
def trimTo (videoDur target : ℚ) : ℚ := min videoDur target

lemma posSum_cons_pos {d : ℚ} (l : List ℚ) (h : 0 < d) :
    posSum (d :: l) = d + posSum l := by
  simp [posSum, List.filter_cons, h]

lemma posSum_cons_nonpos {d : ℚ} (l : List ℚ) (h : d ≤ 0) :
    posSum (d :: l) = posSum l := by
  have : ¬ (0 < d) := not_lt.mpr h
  simp [posSum, List.filter_cons, this]

lemma sum_le_posSum (l : List ℚ) : l.sum ≤ posSum l := by
  induction l with
  | nil => simp [posSum]
  | cons d rest ih =>
      by_cases h : 0 < d
      · rw [posSum_cons_pos rest h, List.sum_cons]
        exact add_le_add_left ih d
      · rw [posSum_cons_nonpos rest (not_lt.mp h), List.sum_cons]
        have hd : d ≤ 0 := not_lt.mp h
        linarith

lemma posSum_nonneg (l : List ℚ) : 0 ≤ posSum l := by
  apply List.sum_nonneg
  intro x hx
  have := (List.mem_filter.mp hx).2
  exact le_of_lt (of_decide_eq_true this)

lemma posSum_perm {l l' : List ℚ} (h : l.Perm l') : posSum l = posSum l' := by
  exact List.Perm.sum_eq (List.Perm.filter _ h)

lemma concatPass_spec (target : ℚ) :
    ∀ (l : List ℚ) (acc : ℚ),
      (concatPass target l acc).2 = acc + (concatPass target l acc).1.sum
      ∧ (target ≤ (concatPass target l acc).2
          ∨ (concatPass target l acc).2 = acc + posSum l) := by
  intro l
  induction l with
  | nil => intro acc; exact ⟨by simp [concatPass], Or.inr (by simp [concatPass, posSum])⟩
  | cons d rest ih =>
      intro acc
      by_cases hd : d ≤ 0
      · have e : concatPass target (d :: rest) acc = concatPass target rest acc := by
          simp [concatPass, hd]
        rw [e, posSum_cons_nonpos rest hd]
        exact ih acc
      · have hdpos : 0 < d := not_le.mp hd
        by_cases hbreak : target ≤ acc + d
        · have e : concatPass target (d :: rest) acc = ([d], acc + d) := by
            simp [concatPass, hd, hbreak]
          rw [e]
          exact ⟨by simp, Or.inl hbreak⟩
        · have e : concatPass target (d :: rest) acc
              = ((d :: (concatPass target rest (acc + d)).1),
                 (concatPass target rest (acc + d)).2) := by
            simp [concatPass, hd, hbreak]
          rw [e]
          obtain ⟨h1, h2⟩ := ih (acc + d)
          constructor
          · simp only [List.sum_cons]
            rw [h1]; ring
          · rcases h2 with h2 | h2
            · exact Or.inl h2
            · right
              rw [h2, posSum_cons_pos rest hdpos]
              ring

lemma concatLoop_spec (target P : ℚ) (shuffles : ℕ → List ℚ)
    (hP : ∀ k, posSum (shuffles k) = P) (hP0 : 0 ≤ P) :
    ∀ (fuel k : ℕ) (acc : ℚ) (out : List ℚ),
      acc = out.sum →
      target ≤ acc + fuel * P →
      ∃ l a, concatLoop target shuffles fuel k acc out = some (l, a)
        ∧ target ≤ a ∧ a = l.sum := by
  intro fuel
  induction fuel with
  | zero =>
      intro k acc out hacc hle
      simp only [Nat.cast_zero, zero_mul, add_zero] at hle
      refine ⟨out, acc, ?_, hle, hacc⟩
      simp [concatLoop, hle]
  | succ n ih =>
      intro k acc out hacc hle
      by_cases hdone : target ≤ acc
      · refine ⟨out, acc, ?_, hdone, hacc⟩
        simp [concatLoop, hdone]
      · have hpass := concatPass_spec target (shuffles k) acc
        have hacc' : (concatPass target (shuffles k) acc).2
            = (out ++ (concatPass target (shuffles k) acc).1).sum := by
          rw [List.sum_append, ← hacc, hpass.1]
        have hle' : target ≤ (concatPass target (shuffles k) acc).2 + n * P := by
          rcases hpass.2 with h | h
          · have : (0 : ℚ) ≤ n * P := mul_nonneg (by positivity) hP0
            linarith
          · rw [h, hP k]
            push_cast at hle ⊢
            linarith
        obtain ⟨l, a, heq, hta, hls⟩ :=
          ih (k + 1) (concatPass target (shuffles k) acc).2
            (out ++ (concatPass target (shuffles k) acc).1) hacc' hle'
        refine ⟨l, a, ?_, hta, hls⟩
        simp only [concatLoop, if_neg hdone]
        exact heq

/-- C8: in the stock-footage fallback, whenever the downloaded pool has
positive total duration, some number of passes suffices: the loop (reshuffled
each pass — any sequence of permutations of the pool) terminates with a concat
list whose accumulated duration is the sum of its entries and meets or exceeds
the target audio duration, and the final `-t` cut then yields the audio
duration exactly. -/
theorem C8_stock_loop_fills_target (durations : List ℚ) (target : ℚ)
    (shuffles : ℕ → List ℚ)
    (hsum : 0 < durations.sum)
    (hsh : ∀ k, (shuffles k).Perm durations) :
    ∃ fuel l a, concat_clips durations target shuffles fuel = some (l, a)
      ∧ target ≤ a ∧ a = l.sum ∧ trimTo a target = target := by
  set P := posSum durations with hPdef
  have hP : ∀ k, posSum (shuffles k) = P := fun k => posSum_perm (hsh k)
  have hPpos : 0 < P := lt_of_lt_of_le hsum (sum_le_posSum durations)
  obtain ⟨n, hn⟩ := exists_nat_ge (target / P)
  have hfuel : target ≤ 0 + (n : ℚ) * P := by
    rw [zero_add]
    calc target = target / P * P := by field_simp
      _ ≤ (n : ℚ) * P := by
          apply mul_le_mul_of_nonneg_right hn (le_of_lt hPpos)
  obtain ⟨l, a, heq, hta, hls⟩ :=
    concatLoop_spec target P shuffles hP (le_of_lt hPpos) n 0 0 [] (by simp) hfuel
  refine ⟨n, l, a, ?_, hta, hls, min_eq_right hta⟩
  rw [concat_clips, if_neg (not_le.mpr hsum)]
  exact heq

/-- Witness for C8: a pool holding a single 2-second clip fills a 3-second
audio target. -/
theorem C8_stock_loop_fills_target_witness :
    ∃ fuel l a, concat_clips [2] 3 (fun _ => [2]) fuel = some (l, a)
      ∧ (3 : ℚ) ≤ a ∧ a = l.sum ∧ trimTo a 3 = 3 := by
  have h := C8_stock_loop_fills_target [2] 3 (fun _ => [2])
    (by norm_num) (fun k => List.Perm.refl [2])
  exact h

/- ====================================================================
   src/apis/tts.py : _split_text, generate_speech
   ==================================================================== -/

/-- Whitespace as Python's `str.strip` sees it (the characters that can occur
here). -/
def isWS (c : Char) : Bool := c = ' ' || c = '\n' || c = '\t' || c = '\r'

/-- Python `str.strip`. -/
def strip (l : List Char) : List Char :=
  ((l.dropWhile isWS).reverse.dropWhile isWS).reverse

/-- Python `str.split(". ")`: split on every occurrence of the two-character
separator. -/
def splitDS : List Char → List (List Char)
  | [] => [[]]
  | '.' :: ' ' :: rest => [] :: splitDS rest
  | c :: rest =>
    match splitDS rest with
    | [] => [[c]]
    | s :: ss => (c :: s) :: ss

/-- Rejoin sentences with the `". "` separator (the shape of the `candidate`
strings `_split_text` builds). -/
def intercalateDS : List (List Char) → List Char
  | [] => []
  | [s] => s
  | s :: rest => s ++ '.' :: ' ' :: intercalateDS rest

/-- `text.replace("\n", " ")`, applied before splitting. -/
def processed (text : List Char) : List Char :=
  text.map (fun c => if c = '\n' then ' ' else c)

/-- The accumulator loop of `_split_text`: `current` is the chunk being built;
a sentence that would push the candidate over `max_chars` (with a non-empty
current) flushes the stripped current chunk and restarts from that sentence;
at the end the final chunk is kept only if its strip is non-empty. -/
def splitLoop (maxChars : ℕ) : List (List Char) → List Char → List (List Char)
  | [], current => if strip current = [] then [] else [strip current]
  | s :: rest, current =>
    let candidate := if current = [] then s else current ++ '.' :: ' ' :: s
    if maxChars < candidate.length ∧ current ≠ [] then
      strip current :: splitLoop maxChars rest s
    else
      splitLoop maxChars rest candidate

/-- `_split_text`: split the newline-flattened text at sentence boundaries and
regroup; if no chunk survives, fall back to the truncated raw text. -/
def split_text (text : List Char) (maxChars : ℕ) : List (List Char) :=
  let chunks := splitLoop maxChars (splitDS (processed text)) []
  if chunks = [] then [text.take maxChars] else chunks

/-- The per-chunk synthesis loop of `generate_speech`: request audio for each
chunk in order, appending the returned bytes; the first failed chunk fails the
whole call. -/
def sequenceChunks (audioOf : List Char → Option (List ℕ)) :
    List (List Char) → Option (List ℕ)
  | [] => some []
  | c :: rest =>
    match audioOf c with
    | none => none
    | some b =>
      match sequenceChunks audioOf rest with
      | none => none
      | some bs => some (b ++ bs)

/-- `generate_speech`: split at the provider's 4500-character chunk limit and
concatenate the per-chunk audio in order. -/
def generate_speech (text : List Char) (audioOf : List Char → Option (List ℕ)) :
    Option (List ℕ) :=
  sequenceChunks audioOf (split_text text 4500)

lemma splitLoop_nil_eq (maxChars : ℕ) (current : List Char) :
    splitLoop maxChars [] current
      = if strip current = [] then [] else [strip current] := rfl

lemma splitLoop_cons_eq (maxChars : ℕ) (s : List Char) (rest : List (List Char))
    (current : List Char) :
    splitLoop maxChars (s :: rest) current
      = if maxChars < (if current = [] then s
            else current ++ '.' :: ' ' :: s).length ∧ current ≠ [] then
          strip current :: splitLoop maxChars rest s
        else
          splitLoop maxChars rest
            (if current = [] then s else current ++ '.' :: ' ' :: s) := rfl

lemma dropWhile_length_le (m : List Char) : (m.dropWhile isWS).length ≤ m.length := by
  induction m with
  | nil => simp
  | cons c t ih =>
      by_cases h : isWS c = true
      · rw [List.dropWhile_cons_of_pos h]
        exact le_trans ih (Nat.le_succ _)
      · rw [List.dropWhile_cons_of_neg h]

lemma strip_length_le (l : List Char) : (strip l).length ≤ l.length := by
  unfold strip
  calc ((l.dropWhile isWS).reverse.dropWhile isWS).reverse.length
      = ((l.dropWhile isWS).reverse.dropWhile isWS).length := List.length_reverse _
    _ ≤ (l.dropWhile isWS).reverse.length := dropWhile_length_le _
    _ = (l.dropWhile isWS).length := List.length_reverse _
    _ ≤ l.length := dropWhile_length_le l

lemma splitLoop_chunk_length (maxChars : ℕ) :
    ∀ (ss : List (List Char)) (current : List Char),
      (∀ s ∈ ss, s.length ≤ maxChars) →
      current.length ≤ maxChars →
      ∀ c ∈ splitLoop maxChars ss current, c.length ≤ maxChars := by
  intro ss
  induction ss with
  | nil =>
      intro current _ hcur c hc
      rw [splitLoop_nil_eq] at hc
      by_cases h : strip current = []
      · rw [if_pos h] at hc
        exact absurd hc (List.not_mem_nil c)
      · rw [if_neg h] at hc
        rcases List.mem_singleton.mp hc with rfl
        exact le_trans (strip_length_le current) hcur
  | cons s rest ih =>
      intro current hss hcur c hc
      have hs : s.length ≤ maxChars := hss s (List.mem_cons_self s rest)
      have hrest : ∀ x ∈ rest, x.length ≤ maxChars :=
        fun x hx => hss x (List.mem_cons_of_mem s hx)
      rw [splitLoop_cons_eq] at hc
      by_cases hcond : maxChars < (if current = [] then s
          else current ++ '.' :: ' ' :: s).length ∧ current ≠ []
      · rw [if_pos hcond] at hc
        rcases List.mem_cons.mp hc with rfl | hc2
        · exact le_trans (strip_length_le current) hcur
        · exact ih s hrest hs c hc2
      · rw [if_neg hcond] at hc
        push_neg at hcond
        by_cases hc0 : current = []
        · rw [if_pos hc0] at hc
          exact ih s hrest hs c hc
        · have hlen : (current ++ '.' :: ' ' :: s).length ≤ maxChars := by
            by_contra hgt
            exact hc0 (hcond (by
              rw [if_neg hc0]
              exact not_le.mp hgt))
          rw [if_neg hc0] at hc
          exact ih (current ++ '.' :: ' ' :: s) hrest hlen c hc

lemma intercalateDS_snoc (blk : List (List Char)) (s : List Char) (h : blk ≠ []) :
    intercalateDS (blk ++ [s]) = intercalateDS blk ++ '.' :: ' ' :: s := by
  induction blk with
  | nil => exact absurd rfl h
  | cons x rest ih =>
      cases rest with
      | nil => rfl
      | cons y t =>
          have e1 : intercalateDS ((x :: y :: t) ++ [s])
              = x ++ '.' :: ' ' :: intercalateDS ((y :: t) ++ [s]) := rfl
          have e2 : intercalateDS (x :: y :: t)
              = x ++ '.' :: ' ' :: intercalateDS (y :: t) := rfl
          rw [e1, e2, ih (by simp)]
          simp

lemma splitLoop_blocks (maxChars : ℕ) (allS : List (List Char)) :
    ∀ (ss done blk : List (List Char)),
      allS = done ++ ss →
      (∃ t, t ++ blk = done) →
      ∀ c ∈ splitLoop maxChars ss (intercalateDS blk),
        ∃ b, b ≠ [] ∧ b <:+: allS ∧ c = strip (intercalateDS b) := by
  intro ss
  induction ss with
  | nil =>
      intro done blk hall ⟨t, ht⟩ c hc
      rw [splitLoop_nil_eq] at hc
      by_cases h : strip (intercalateDS blk) = []
      · rw [if_pos h] at hc
        exact absurd hc (List.not_mem_nil c)
      · rw [if_neg h] at hc
        rcases List.mem_singleton.mp hc with rfl
        have hblk : blk ≠ [] := by
          intro hnil
          rw [hnil] at h
          exact h rfl
        refine ⟨blk, hblk, ⟨t, [], ?_⟩, rfl⟩
        rw [hall, ht]
  | cons s rest ih =>
      intro done blk hall ⟨t, ht⟩ c hc
      rw [splitLoop_cons_eq] at hc
      have hall' : allS = (done ++ [s]) ++ rest := by
        rw [hall]; simp
      have hsub' : ∃ u, u ++ [s] = done ++ [s] := ⟨done, rfl⟩
      by_cases hc0 : intercalateDS blk = []
      · have hcand : (if intercalateDS blk = [] then s
            else intercalateDS blk ++ '.' :: ' ' :: s) = s := if_pos hc0
        rw [hcand] at hc
        have hfalse : ¬ (maxChars < s.length ∧ intercalateDS blk ≠ []) :=
          fun hand => hand.2 hc0
        rw [if_neg hfalse] at hc
        have hs : splitLoop maxChars rest s
            = splitLoop maxChars rest (intercalateDS [s]) := rfl
        rw [hs] at hc
        exact ih (done ++ [s]) [s] hall' hsub' c hc
      · have hblk : blk ≠ [] := by
          intro hnil
          rw [hnil] at hc0
          exact hc0 rfl
        have hcand : (if intercalateDS blk = [] then s
            else intercalateDS blk ++ '.' :: ' ' :: s)
            = intercalateDS blk ++ '.' :: ' ' :: s := if_neg hc0
        rw [hcand] at hc
        have hsnoc : intercalateDS blk ++ '.' :: ' ' :: s = intercalateDS (blk ++ [s]) :=
          (intercalateDS_snoc blk s hblk).symm
        by_cases hcond : maxChars < (intercalateDS blk ++ '.' :: ' ' :: s).length
        · rw [if_pos ⟨hcond, hc0⟩] at hc
          rcases List.mem_cons.mp hc with rfl | hc2
          · refine ⟨blk, hblk, ⟨t, s :: rest, ?_⟩, rfl⟩
            rw [hall, ← ht]
          · have hs : splitLoop maxChars rest s
                = splitLoop maxChars rest (intercalateDS [s]) := rfl
            rw [hs] at hc2
            exact ih (done ++ [s]) [s] hall' hsub' c hc2
        · rw [if_neg (fun hand => hcond hand.1)] at hc
          rw [hsnoc] at hc
          have hsub2 : ∃ u, u ++ (blk ++ [s]) = done ++ [s] := by
            refine ⟨t, ?_⟩
            rw [← List.append_assoc, ht]
          exact ih (done ++ [s]) (blk ++ [s]) hall' hsub2 c hc

lemma sequenceChunks_total (audioOf : List Char → Option (List ℕ))
    (f : List Char → List ℕ) :
    ∀ chunks : List (List Char), (∀ c ∈ chunks, audioOf c = some (f c)) →
      sequenceChunks audioOf chunks = some ((chunks.map f).flatten) := by
  intro chunks
  induction chunks with
  | nil => intro _; rfl
  | cons c rest ih =>
      intro h
      have hc : audioOf c = some (f c) := h c (List.mem_cons_self c rest)
      have hr := ih (fun x hx => h x (List.mem_cons_of_mem c hx))
      simp [sequenceChunks, hc, hr]

lemma split_text_eq (text : List Char) (maxChars : ℕ) :
    split_text text maxChars
      = if splitLoop maxChars (splitDS (processed text)) [] = []
        then [text.take maxChars]
        else splitLoop maxChars (splitDS (processed text)) [] := rfl

/-- C9 amended: chunks are cut at sentence boundaries — each chunk is a
non-empty block of consecutive sentences of the newline-flattened text,
rejoined with the sentence separator and stripped (or, in the degenerate
all-whitespace fallback, the truncated raw text); each chunk respects the
4500-character limit provided every single sentence does (a lone sentence
longer than the limit becomes an oversized chunk); and the per-chunk audio
segments are concatenated in the chunks' original order. -/
theorem C9_tts_chunking (text : List Char) (audioOf : List Char → Option (List ℕ))
    (f : List Char → List ℕ) :
    ((∀ s ∈ splitDS (processed text), s.length ≤ 4500) →
        ∀ c ∈ split_text text 4500, c.length ≤ 4500)
    ∧ (∀ c ∈ split_text text 4500,
        (∃ b, b ≠ [] ∧ b <:+: splitDS (processed text) ∧ c = strip (intercalateDS b))
        ∨ c = text.take 4500)
    ∧ ((∀ c ∈ split_text text 4500, audioOf c = some (f c)) →
        generate_speech text audioOf = some (((split_text text 4500).map f).flatten)) := by
  refine ⟨?_, ?_, ?_⟩
  · intro hS c hc
    rw [split_text_eq] at hc
    by_cases hnil : splitLoop 4500 (splitDS (processed text)) [] = []
    · rw [if_pos hnil] at hc
      rcases List.mem_singleton.mp hc with rfl
      rw [List.length_take]
      exact min_le_left 4500 text.length
    · rw [if_neg hnil] at hc
      exact splitLoop_chunk_length 4500 (splitDS (processed text)) [] hS (by simp) c hc
  · intro c hc
    rw [split_text_eq] at hc
    by_cases hnil : splitLoop 4500 (splitDS (processed text)) [] = []
    · rw [if_pos hnil] at hc
      exact Or.inr (List.mem_singleton.mp hc)
    · rw [if_neg hnil] at hc
      exact Or.inl (splitLoop_blocks 4500 (splitDS (processed text))
        (splitDS (processed text)) [] [] rfl ⟨[], rfl⟩ c hc)
  · intro hall
    exact sequenceChunks_total audioOf f (split_text text 4500) hall

/-- Witness for C9 on the two-sentence text `"hi. yo"`, kept in one chunk whose
audio is returned as the single segment. -/
theorem C9_tts_chunking_witness :
    (∀ c ∈ split_text ("hi. yo".toList) 4500, c.length ≤ 4500)
    ∧ generate_speech ("hi. yo".toList) (fun c => some [c.length]) = some [6] := by
  have h := C9_tts_chunking ("hi. yo".toList)
    (fun c => some [c.length]) (fun c => [c.length])
  constructor
  · exact h.1 (by decide)
  · have he := h.2.2 (fun c _ => rfl)
    rw [he]
    decide

lemma processed_replicate_a (n : ℕ) :
    processed (List.replicate n 'a') = List.replicate n 'a' := by
  simp [processed, List.map_replicate]

lemma splitDS_replicate_a (n : ℕ) :
    splitDS (List.replicate n 'a') = [List.replicate n 'a'] := by
  induction n with
  | zero => rfl
  | succ m ih =>
      rw [List.replicate_succ]
      rw [show splitDS ('a' :: List.replicate m 'a')
            = match splitDS (List.replicate m 'a') with
              | [] => [['a']]
              | s :: ss => ('a' :: s) :: ss from rfl]
      rw [ih]

lemma strip_replicate_a (n : ℕ) :
    strip (List.replicate (n + 1) 'a') = List.replicate (n + 1) 'a' := by
  unfold strip
  rw [List.replicate_succ, List.dropWhile_cons_of_neg (by decide), ← List.replicate_succ,
    List.reverse_replicate, List.replicate_succ, List.dropWhile_cons_of_neg (by decide),
    ← List.replicate_succ, List.reverse_replicate]

/-- C9 counterexample: a 4501-character narration with no sentence boundary is
returned by `_split_text` as a single 4501-character chunk, above the
4500-character provider limit — the claim that every chunk respects the limit
fails on the code. -/
theorem C9_counterexample :
    split_text (List.replicate 4501 'a') 4500 = [List.replicate 4501 'a']
    ∧ 4500 < (List.replicate 4501 'a').length := by
  have hstrip : strip (List.replicate 4501 'a') = List.replicate 4501 'a' :=
    strip_replicate_a 4500
  have hne : List.replicate 4501 'a' ≠ [] := by
    intro hnil
    have hlen := congrArg List.length hnil
    rw [List.length_replicate, List.length_nil] at hlen
    omega
  have hloop : splitLoop 4500 [List.replicate 4501 'a'] [] = [List.replicate 4501 'a'] := by
    rw [splitLoop_cons_eq]
    have hcand : (if ([] : List Char) = [] then List.replicate 4501 'a'
        else [] ++ '.' :: ' ' :: List.replicate 4501 'a') = List.replicate 4501 'a' :=
      if_pos rfl
    rw [hcand, if_neg (fun hand => hand.2 rfl), splitLoop_nil_eq, hstrip,
      if_neg hne]
  constructor
  · rw [split_text_eq, processed_replicate_a, splitDS_replicate_a, hloop,
      if_neg (List.cons_ne_nil _ _)]
  · rw [List.length_replicate]
    omega

/- ====================================================================
   src/utils/video.py : create_ken_burns_clips
   ==================================================================== -/

/-- The loop of `create_ken_burns_clips` over the zipped (url, duration) pairs:
scene `i`'s slide download (`dlOk`) and motion synthesis (`kbOk`) must both
succeed for the loop to append clip `i` and continue; either failure returns
the empty list at once, discarding the clips already made. -/
def kbGo (dlOk kbOk : ℕ → Bool) : ℕ → ℕ → List ℕ → List ℕ
  | _, 0, acc => acc.reverse
  | i, n + 1, acc =>
    if dlOk i then
      if kbOk i then kbGo dlOk kbOk (i + 1) n (i :: acc)
      else []
    else []

/-- `create_ken_burns_clips` on `n` equal-length url/duration pairs, returning
the indices of the produced clips (`kb_i.mp4`) in order. -/
def create_ken_burns_clips (n : ℕ) (dlOk kbOk : ℕ → Bool) : List ℕ :=
  kbGo dlOk kbOk 0 n []

lemma kbGo_spec (dlOk kbOk : ℕ → Bool) :
    ∀ (n i : ℕ) (acc : List ℕ),
      (∀ j, i ≤ j → j < i + n → dlOk j = true ∧ kbOk j = true) →
      kbGo dlOk kbOk i n acc = acc.reverse ++ (List.range n).map (fun x => i + x) := by
  intro n
  induction n with
  | zero => intro i acc _; simp [kbGo]
  | succ m ih =>
      intro i acc h
      have hi := h i (le_refl i) (by omega)
      rw [show kbGo dlOk kbOk i (m + 1) acc
          = if dlOk i then
              (if kbOk i then kbGo dlOk kbOk (i + 1) m (i :: acc) else [])
            else [] from rfl]
      simp only [hi.1, hi.2, if_true]
      rw [ih (i + 1) (i :: acc) (fun j h1 h2 => h j (by omega) (by omega)),
        List.reverse_cons, List.range_succ_eq_map, List.map_cons, List.map_map,
        List.append_assoc, List.singleton_append]
      simp only [Nat.add_zero]
      congr 1
      congr 1
      apply List.map_congr_left
      intro x _
      simp only [Function.comp_apply]
      omega

lemma kbGo_fail (dlOk kbOk : ℕ → Bool) :
    ∀ (n i : ℕ) (acc : List ℕ),
      (∃ k, i ≤ k ∧ k < i + n ∧ (dlOk k = false ∨ kbOk k = false)) →
      kbGo dlOk kbOk i n acc = [] := by
  intro n
  induction n with
  | zero => rintro i acc ⟨k, h1, h2, _⟩; omega
  | succ m ih =>
      rintro i acc ⟨k, h1, h2, hor⟩
      rw [show kbGo dlOk kbOk i (m + 1) acc
          = if dlOk i then
              (if kbOk i then kbGo dlOk kbOk (i + 1) m (i :: acc) else [])
            else [] from rfl]
      by_cases hd : dlOk i = true
      · simp only [hd, if_true]
        by_cases hb : kbOk i = true
        · simp only [hb, if_true]
          have hki : k ≠ i := by
            rintro rfl
            rcases hor with hx | hx
            · rw [hd] at hx; exact Bool.noConfusion hx
            · rw [hb] at hx; exact Bool.noConfusion hx
          exact ih (i + 1) (i :: acc) ⟨k, by omega, by omega, hor⟩
        · simp [Bool.eq_false_iff.mpr hb]
      · simp [Bool.eq_false_iff.mpr hd]

/-- C10: for equal-length url/duration lists, `create_ken_burns_clips` returns
either exactly one clip per input image in input order (`List.range n`), or the
empty list; all inputs succeeding yields the full list, any single download or
synthesis failure yields the empty list — never a partial list. -/
theorem C10_all_or_nothing (n : ℕ) (dlOk kbOk : ℕ → Bool) :
    (create_ken_burns_clips n dlOk kbOk = List.range n
      ∨ create_ken_burns_clips n dlOk kbOk = [])
    ∧ ((∀ i, i < n → dlOk i = true ∧ kbOk i = true) →
        create_ken_burns_clips n dlOk kbOk = List.range n)
    ∧ ((∃ i, i < n ∧ (dlOk i = false ∨ kbOk i = false)) →
        create_ken_burns_clips n dlOk kbOk = []) := by
  have hsucc : (∀ i, i < n → dlOk i = true ∧ kbOk i = true) →
      create_ken_burns_clips n dlOk kbOk = List.range n := by
    intro h
    unfold create_ken_burns_clips
    rw [kbGo_spec dlOk kbOk n 0 [] (fun j _ h2 => h j (by omega))]
    simp
  have hfail : (∃ i, i < n ∧ (dlOk i = false ∨ kbOk i = false)) →
      create_ken_burns_clips n dlOk kbOk = [] := by
    rintro ⟨k, hk, hor⟩
    unfold create_ken_burns_clips
    exact kbGo_fail dlOk kbOk n 0 [] ⟨k, Nat.zero_le k, by omega, hor⟩
  refine ⟨?_, hsucc, hfail⟩
  by_cases hall : ∀ i, i < n → dlOk i = true ∧ kbOk i = true
  · exact Or.inl (hsucc hall)
  · push_neg at hall
    obtain ⟨i, hi, hnot⟩ := hall
    refine Or.inr (hfail ⟨i, hi, ?_⟩)
    by_cases hd : dlOk i = true
    · exact Or.inr (Bool.eq_false_iff.mpr (hnot hd))
    · exact Or.inl (Bool.eq_false_iff.mpr hd)

/-- Witness for C10: two inputs, every download and synthesis succeeding, give
exactly the two clips in input order. -/
theorem C10_all_or_nothing_witness :
    create_ken_burns_clips 2 (fun _ => true) (fun _ => true) = List.range 2 := by
  have h := C10_all_or_nothing 2 (fun _ => true) (fun _ => true)
  exact h.2.1 (fun i _ => ⟨rfl, rfl⟩)

end Clawd
